import Mathlib

/-!
Verification of the `pkcs1` package: a shallow embedding in Lean 4 of
`pkcs1/primitives.py` and `pkcs1/rsassa_pkcs1_v15.py`, together with
models (from the design document) of the external collaborators the two
files import (`keys.py`, `emsa_pkcs1_v15.py`, `exceptions.py`), and
theorems settling the behavioural claims about the codec, the extended
Euclidean engine, the key generator and the PKCS#1 v1.5 signature scheme.

Conventions of the embedding:
* Python arbitrary-precision non-negative integers are `Nat`; values that
  may be negative (the Bézout coefficients) are `Int`.
* Python byte strings are `List Nat`, each element intended `< 256`
  (stated as a hypothesis where it matters, since Python guarantees it
  by construction of `str`).
* A Python function that can raise returns `Except PErr α`; an uncaught
  exception propagates through `Except.bind` exactly as it propagates
  through Python calls.
-/

/-- The exceptions that can surface through this code.  `IntegerTooLarge`,
`InvalidSignature` and `RSAModulusTooShort` come from the package's
`exceptions` module; `valueError` stands for Python's built-in
`ValueError` (raised by `int('', 16)`, by the range check of `rsavp1`,
and by the external encoder when the modulus is too short). -/
inductive PErr where
  | integerTooLarge
  | invalidSignature
  | rsaModulusTooShort
  | valueError
  deriving DecidableEq, Repr

/-- Modelled from the spec: which exception classes are (subclasses of)
Python's `ValueError`, i.e. are caught by the `except ValueError:`
clauses of `verify`.  The spec's verify step 3 requires the failure of
the `i2osp` conversion to be converted to `InvalidSignature`, so
`IntegerTooLarge` is a `ValueError`; the two protocol errors are not. -/
def isValueError : PErr → Bool
  | .integerTooLarge => true
  | .valueError => true
  | _ => false

/-- `try: act except ValueError: raise repl` — evaluates `act`, replacing
an error that is a `ValueError` by `repl` and propagating any other. -/
def catchVE (act : Except PErr α) (repl : PErr) : Except PErr α :=
  match act with
  | .ok a => .ok a
  | .error e => .error (if isValueError e then repl else e)

instance {ε α : Type} [DecidableEq ε] [DecidableEq α] :
    DecidableEq (Except ε α) := fun x y =>
  match x, y with
  | .ok a, .ok b =>
    if h : a = b then isTrue (by rw [h])
    else isFalse (fun hc => h (Except.ok.inj hc))
  | .error e, .error f =>
    if h : e = f then isTrue (by rw [h])
    else isFalse (fun hc => h (Except.error.inj hc))
  | .ok _, .error _ => isFalse (fun hc => Except.noConfusion hc)
  | .error _, .ok _ => isFalse (fun hc => Except.noConfusion hc)

/-! ## Integer/byte codec (`primitives.py`) -/

/-- The big-endian base-256 digits of `x` (no leading zero byte; `[]` for
`x = 0`), written with explicit fuel so that the kernel can evaluate it.
`beBytesF fuel x` is the digit string as soon as `x ≤ fuel`. -/
def beBytesF : Nat → Nat → List Nat
  | 0, _ => []
  | fuel + 1, x => if x = 0 then [] else beBytesF fuel (x / 256) ++ [x % 256]

/-- The big-endian base-256 digits of `x`, `[]` for `x = 0`. -/
def beBytes (x : Nat) : List Nat := beBytesF x x

/-- The byte string produced by the hex-manipulation of `i2osp` before
padding: `hex(x)` stripped, padded to an even number of hex digits and
decoded — that is, the minimal big-endian representation of `x`, which
is `"\x00"` (one byte) when `x = 0`. -/
def minBytes (x : Nat) : List Nat := if x = 0 then [0] else beBytes x

/-- Embedding of `primitives.i2osp(x, x_len)`: reject `x > 256**x_len`
with `IntegerTooLarge`, otherwise left-pad the minimal big-endian
representation with zero bytes up to length `x_len` (Python's
`'\x00' * (x_len - len(x))` is empty when the count is negative, exactly
as `Nat` subtraction truncates). -/
def i2osp (x x_len : Nat) : Except PErr (List Nat) :=
  if 256 ^ x_len < x then
    .error .integerTooLarge
  else
    .ok (List.replicate (x_len - (minBytes x).length) 0 ++ minBytes x)

/-- Embedding of `primitives.os2ip(x)`: `int(x.encode('hex'), 16)`.
Each byte contributes two hex digits, so on a non-empty string this is
the big-endian base-256 value; on the empty string `int('', 16)` raises
`ValueError`. -/
def os2ip (x : List Nat) : Except PErr Nat :=
  match x with
  | [] => .error .valueError
  | _ => .ok (x.foldl (fun acc b => acc * 256 + b) 0)

/-- Embedding of `primitives.constant_time_cmp(a, b)`: fold the
conjunction of bytewise equality over `zip a b`, starting from `True`. -/
def constant_time_cmp (a b : List Nat) : Bool :=
  (a.zip b).foldl (fun result p => result && (p.1 == p.2)) true

/-! ## Bit and byte sizes (`primitives.py`) -/

/-- The `while n: s += 1; n >>= 1` loop of `integer_bit_size`, with fuel
so the kernel can evaluate it; `fuel = n` always suffices since
`n < 2 ^ n`. -/
def bitSizeLoop : Nat → Nat → Nat → Nat
  | 0, _, s => s
  | fuel + 1, n, s => if n = 0 then s else bitSizeLoop fuel (n / 2) (s + 1)

/-- Embedding of `primitives.integer_bit_size(n)`: `1` for `n = 0`,
otherwise the number of right shifts needed to reach `0`. -/
def integer_bit_size (n : Nat) : Nat :=
  if n = 0 then 1 else bitSizeLoop n n 0

/-- Embedding of `primitives.integer_byte_size(n)`:
`quanta, mod = divmod(integer_bit_size(n), 8)`, plus one when `mod` is
non-zero or `n = 0`. -/
def integer_byte_size (n : Nat) : Nat :=
  let quanta := integer_bit_size n / 8
  let m := integer_bit_size n % 8
  if m ≠ 0 ∨ n = 0 then quanta + 1 else quanta

/-! ## Extended Euclidean engine (`primitives.py`) -/

/-- The state of `bezout`'s `while b > 0` loop: variables
`(a, b, u, v, s, t)`, stepping to
`(b, a % b, s, t, u - (a/b)*s, v - (a/b)*t)` and returning `(u, v, a)`
when `b = 0`. -/
def bezoutAux (a b : Nat) (u v s t : Int) : Int × Int × Nat :=
  if h : 0 < b then
    bezoutAux b (a % b) s t (u - (a / b : Nat) * s) (v - (a / b : Nat) * t)
  else
    (u, v, a)
termination_by b
decreasing_by exact Nat.mod_lt _ h

/-- Embedding of `primitives.bezout(a, b)`: iterative extended Euclid
starting from `u, v, s, t = 1, 0, 0, 1`. -/
def bezout (a b : Nat) : Int × Int × Nat :=
  bezoutAux a b 1 0 0 1

/-! ## RSA key objects — modelled from the spec (`keys.py` is an external
module not part of the two source files). -/

/-- Embedding of `primitives._pow(a, b, mod)`, i.e. Python's
`pow(a, b, mod)`: exact modular exponentiation. -/
def pow_mod3 (a b mod : Nat) : Nat := a ^ b % mod

/-- Modelled from the spec: `keys.RsaPublicKey` holds the modulus `n`
and public exponent `e`. -/
structure RsaPublicKey where
  n : Nat
  e : Nat
  deriving DecidableEq, Repr

/-- Modelled from the spec: the public key's `k` is the byte length of
the modulus, `k = ceil(bit_length(n)/8)`. -/
def RsaPublicKey.k (pk : RsaPublicKey) : Nat := integer_byte_size pk.n

/-- Modelled from the spec: the public-key primitive `RSAVP1(s)` returns
`s^e mod n` and fails (with Python's `ValueError`) if `s ∉ [0, n-1]`. -/
def RsaPublicKey.rsavp1 (pk : RsaPublicKey) (s : Nat) : Except PErr Nat :=
  if pk.n ≤ s then .error .valueError else .ok (pow_mod3 s pk.e pk.n)

/-- Modelled from the spec: `keys.MultiPrimeRsaPrivateKey` holds the
ordered prime factors and the public exponent (the blinding flag and
random source do not affect the observable result, see `rsasp1`). -/
structure MultiPrimeRsaPrivateKey where
  primes : List Nat
  e : Nat
  deriving DecidableEq, Repr

/-- Modelled from the spec: the private key's modulus is the product of
its primes. -/
def MultiPrimeRsaPrivateKey.n (sk : MultiPrimeRsaPrivateKey) : Nat :=
  sk.primes.prod

/-- Modelled from the spec: the group order `λ` is the product of
`(p_i - 1)` over the key's primes. -/
def MultiPrimeRsaPrivateKey.lbda (sk : MultiPrimeRsaPrivateKey) : Nat :=
  (sk.primes.map (fun p => p - 1)).prod

/-- Modelled from the spec: the private key's byte length, as for the
public key. -/
def MultiPrimeRsaPrivateKey.k (sk : MultiPrimeRsaPrivateKey) : Nat :=
  integer_byte_size sk.n

/-- Modelled from the spec: the private exponent is computed from
`(e, λ)` via modular inverse; here the Bézout coefficient of `e`,
reduced into `[0, λ)`. -/
def privateExponent (e lbda : Nat) : Nat :=
  ((bezout e lbda).1 % (lbda : Int)).toNat

/-- Modelled from the spec: the private-key primitive `RSASP1(m)`.  The
spec requires blinding and the CRT optimisation not to change the
observable result, which is `m^d mod n` with `d` the modular inverse of
`e` modulo `λ`. -/
def MultiPrimeRsaPrivateKey.rsasp1 (sk : MultiPrimeRsaPrivateKey) (m : Nat) : Nat :=
  pow_mod3 m (privateExponent sk.e sk.lbda) sk.n

/-! ## The external EMSA-PKCS#1 v1.5 encoder — modelled from the spec
(`emsa_pkcs1_v15.py` is an external module not part of the two source
files). -/

/-- Modelled from the spec: the external message encoder
`emsa_pkcs1_v15.encode(message, emLen)` — "hash + ASN.1 DigestInfo +
padding to length k".  `digestInfo` abstracts the hash-then-DigestInfo
step; the EMSA-PKCS1-v1.5 output is
`00 01 FF…FF 00 ‖ T` with at least eight `FF` bytes, and the encoder
fails (`ValueError`, "intended encoded message length too short") when
`emLen < len(T) + 11`. -/
def emsa_encode (digestInfo : List Nat → List Nat) (msg : List Nat)
    (emLen : Nat) : Except PErr (List Nat) :=
  let t := digestInfo msg
  if emLen < t.length + 11 then
    .error .valueError
  else
    .ok ([0, 1] ++ List.replicate (emLen - t.length - 3) 255 ++ [0] ++ t)

/-! ## PKCS#1 v1.5 signature scheme (`rsassa_pkcs1_v15.py`) -/

/-- Embedding of `rsassa_pkcs1_v15.sign(private_key, message)`:
encode, `os2ip`, `rsasp1`, `i2osp` — no exception is caught. -/
def sign (encode : List Nat → Nat → Except PErr (List Nat))
    (sk : MultiPrimeRsaPrivateKey) (msg : List Nat) : Except PErr (List Nat) :=
  (encode msg sk.k).bind fun em =>
  (os2ip em).bind fun m =>
  i2osp (sk.rsasp1 m) sk.k

/-- The body of `rsassa_pkcs1_v15.verify`, abstracted over the public
key's byte length `k` and its primitive `rsavp1` (Python accesses both
through the duck-typed `public_key` argument): length check, `os2ip`,
`rsavp1` with `ValueError` mapped to `InvalidSignature`, `i2osp` with
`ValueError` mapped to `InvalidSignature`, the external encoder with
`ValueError` mapped to `RSAModulusTooShort`, then the constant-time
comparison. -/
def verifyGen (k : Nat) (vp1 : Nat → Except PErr Nat)
    (encode : List Nat → Nat → Except PErr (List Nat))
    (msg sig : List Nat) : Except PErr Bool :=
  if sig.length ≠ k then
    .error .invalidSignature
  else
    (os2ip sig).bind fun s =>
    (catchVE (vp1 s) .invalidSignature).bind fun m =>
    (catchVE (i2osp m k) .invalidSignature).bind fun em =>
    (catchVE (encode msg k) .rsaModulusTooShort).bind fun em_prime =>
    .ok (constant_time_cmp em em_prime)

/-- Embedding of `rsassa_pkcs1_v15.verify(public_key, message, signature)`. -/
def verify (encode : List Nat → Nat → Except PErr (List Nat))
    (pk : RsaPublicKey) (msg sig : List Nat) : Except PErr Bool :=
  verifyGen pk.k (pk.rsavp1) encode msg sig

/-! ## Key generation (`primitives.py`) -/

/-- The `while len(primes) < number` loop of `generate_key_pair`.  The
external primality provider `get_prime` is abstracted as the stream of
values its successive calls return (the `bits` argument only influences
that external choice); the loop state is `(primes, lbda, n)`.  `none`
means the stream was exhausted with the Python loop still waiting on
`get_prime`. -/
def genLoop (size number : Nat) (eOpt : Option Nat) (strict : Bool) :
    List Nat → List Nat → Nat → Nat → Option (List Nat × Nat × Nat)
  | stream, primes, lbda, n =>
    if number ≤ primes.length then
      some (primes, lbda, n)
    else
      match stream with
      | [] => none
      | c :: cs =>
        if c ∈ primes then
          genLoop size number eOpt strict cs primes lbda n
        else if eOpt.elim false (fun e => Nat.gcd e lbda ≠ 1) then
          genLoop size number eOpt strict cs primes lbda n
        else if strict ∧ number - primes.length = 1 ∧
            integer_bit_size (n * c) ≠ size then
          genLoop size number eOpt strict cs primes lbda n
        else
          genLoop size number eOpt strict cs
            (primes ++ [c]) (lbda * (c - 1)) (n * c)

/-- The `while e < lbda: … e += 2` search of `generate_key_pair` for the
default public exponent, starting from `0x10001`. -/
def eSearch (lbda e : Nat) : Nat :=
  if e < lbda then
    if Nat.gcd e lbda = 1 then e else eSearch lbda (e + 2)
  else
    e
termination_by lbda - e

/-- Embedding of `primitives.generate_key_pair(size, number, …, strict_size, e)`
with the primality provider abstracted as the stream of primes it
returns.  `none` covers the two ways the Python call fails to return a
pair: the candidate loop still running (stream exhausted) and the
`assert 3 <= e <= n-1` failing (an `AssertionError`). -/
def generate_key_pair (size number : Nat) (stream : List Nat)
    (strict : Bool) (eOpt : Option Nat) :
    Option (RsaPublicKey × MultiPrimeRsaPrivateKey) :=
  match genLoop size number eOpt strict stream [] 1 1 with
  | none => none
  | some (primes, lbda, n) =>
    let e := match eOpt with
      | some e => e
      | none => eSearch lbda 0x10001
    if 3 ≤ e ∧ e ≤ n - 1 then
      some (⟨n, e⟩, ⟨primes, e⟩)
    else
      none

/-! ## Helper notions and lemmas for the codec -/

/-- The big-endian base-256 value of a byte string (the accumulator fold
used by `os2ip`). -/
def beFold (s : List Nat) : Nat :=
  s.foldl (fun acc b => acc * 256 + b) 0

/-- The non-negative integer whose big-endian base-256 digits are the
string's bytes, written positionally (the spec's description of
`OS2IP`). -/
def beVal : List Nat → Nat
  | [] => 0
  | b :: t => b * 256 ^ t.length + beVal t

/-- The big-endian representation of `x mod 256^L` on exactly `L` bytes. -/
def padBE : Nat → Nat → List Nat
  | _, 0 => []
  | x, L + 1 => padBE (x / 256) L ++ [x % 256]

theorem os2ip_of_ne_nil {s : List Nat} (h : s ≠ []) : os2ip s = .ok (beFold s) := by
  cases s with
  | nil => exact absurd rfl h
  | cons b t => rfl

theorem beFold_shift (s : List Nat) :
    ∀ a : Nat, s.foldl (fun acc b => acc * 256 + b) a =
      a * 256 ^ s.length + beFold s := by
  induction s with
  | nil => intro a; simp [beFold]
  | cons b t ih =>
    intro a
    show t.foldl _ (a * 256 + b) = _
    rw [ih (a * 256 + b)]
    have hb : beFold (b :: t) = b * 256 ^ t.length + beFold t := by
      show t.foldl _ (0 * 256 + b) = _
      rw [ih (0 * 256 + b)]
      ring
    rw [hb]
    simp [List.length_cons, pow_succ]
    ring

theorem beFold_cons (b : Nat) (t : List Nat) :
    beFold (b :: t) = b * 256 ^ t.length + beFold t := by
  show t.foldl _ (0 * 256 + b) = _
  rw [beFold_shift t (0 * 256 + b)]
  ring

theorem beFold_eq_beVal (s : List Nat) : beFold s = beVal s := by
  induction s with
  | nil => rfl
  | cons b t ih => rw [beFold_cons, beVal, ih]

theorem beFold_append_singleton (l : List Nat) (b : Nat) :
    beFold (l ++ [b]) = beFold l * 256 + b := by
  unfold beFold
  rw [List.foldl_append]
  rfl

theorem beFold_lt {s : List Nat} (h : ∀ b ∈ s, b < 256) :
    beFold s < 256 ^ s.length := by
  induction s with
  | nil => simp [beFold]
  | cons b t ih =>
    rw [beFold_cons]
    have hb : b < 256 := h b (List.mem_cons_self b t)
    have ht : beFold t < 256 ^ t.length := ih (fun c hc => h c (List.mem_cons_of_mem b hc))
    calc b * 256 ^ t.length + beFold t
        < b * 256 ^ t.length + 256 ^ t.length := by omega
      _ = (b + 1) * 256 ^ t.length := by ring
      _ ≤ 256 * 256 ^ t.length := by
          exact Nat.mul_le_mul_right _ (by omega)
      _ = 256 ^ (b :: t).length := by
          rw [List.length_cons, pow_succ]; ring

theorem beFold_replicate_zero (j : Nat) (s : List Nat) :
    beFold (List.replicate j 0 ++ s) = beFold s := by
  induction j with
  | zero => simp
  | succ j ih =>
    rw [List.replicate_succ, List.cons_append, beFold_cons, ih]
    simp

theorem padBE_length (x L : Nat) : (padBE x L).length = L := by
  induction L generalizing x with
  | zero => rfl
  | succ L ih => simp [padBE, ih]

theorem beFold_padBE {x L : Nat} (h : x < 256 ^ L) : beFold (padBE x L) = x := by
  induction L generalizing x with
  | zero =>
    have : x = 0 := by simpa using h
    simp [padBE, beFold, this]
  | succ L ih =>
    have hdiv : x / 256 < 256 ^ L := by
      rw [Nat.div_lt_iff_lt_mul (by norm_num : 0 < 256)]
      calc x < 256 ^ (L + 1) := h
        _ = 256 ^ L * 256 := by rw [pow_succ]
    rw [padBE, beFold_append_singleton, ih hdiv]
    omega

theorem padBE_beFold {s : List Nat} (h : ∀ b ∈ s, b < 256) :
    padBE (beFold s) s.length = s := by
  induction s using List.reverseRecOn with
  | nil => rfl
  | append_singleton l b ih =>
    have hb : b < 256 := h b (by simp)
    have hl : ∀ c ∈ l, c < 256 := fun c hc => h c (by simp [hc])
    rw [beFold_append_singleton]
    have hlen : (l ++ [b]).length = l.length + 1 := by simp
    rw [hlen, padBE]
    have h1 : (beFold l * 256 + b) / 256 = beFold l := by
      omega
    have h2 : (beFold l * 256 + b) % 256 = b := by
      omega
    rw [h1, h2, ih hl]

theorem beBytesF_zero_arg (f : Nat) : beBytesF f 0 = [] := by
  cases f <;> simp [beBytesF]

theorem beBytesF_congr : ∀ f g x : Nat, x ≤ f → x ≤ g → beBytesF f x = beBytesF g x := by
  intro f
  induction f with
  | zero =>
    intro g x hf _
    have : x = 0 := Nat.le_zero.mp hf
    subst this
    rw [beBytesF_zero_arg, beBytesF_zero_arg]
  | succ f ih =>
    intro g x hf hg
    by_cases hx : x = 0
    · subst hx; rw [beBytesF_zero_arg, beBytesF_zero_arg]
    · have hx1 : 1 ≤ x := Nat.one_le_iff_ne_zero.mpr hx
      obtain ⟨g', rfl⟩ : ∃ g', g = g' + 1 := by
        cases g with
        | zero => omega
        | succ g' => exact ⟨g', rfl⟩
      have hdivlt : x / 256 < x := Nat.div_lt_self hx1 (by norm_num)
      simp only [beBytesF, if_neg hx]
      rw [ih g' (x / 256) (by omega) (by omega)]

theorem beBytes_eq (x : Nat) :
    beBytes x = if x = 0 then [] else beBytes (x / 256) ++ [x % 256] := by
  by_cases hx : x = 0
  · simp [hx, beBytes, beBytesF_zero_arg]
  · have hx1 : 1 ≤ x := Nat.one_le_iff_ne_zero.mpr hx
    obtain ⟨x', rfl⟩ : ∃ x', x = x' + 1 := ⟨x - 1, by omega⟩
    rw [if_neg hx]
    show beBytesF (x' + 1) (x' + 1) = _
    simp only [beBytesF, if_neg hx]
    have hdiv : (x' + 1) / 256 ≤ x' := by
      have := Nat.div_lt_self (show 0 < x' + 1 by omega) (show 1 < 256 by norm_num)
      omega
    rw [beBytesF_congr x' ((x' + 1) / 256) ((x' + 1) / 256) hdiv (le_refl _)]
    rfl

theorem beBytes_zero : beBytes 0 = [] := rfl

theorem beBytes_bytes_lt (x : Nat) : ∀ c ∈ beBytes x, c < 256 := by
  induction x using Nat.strong_induction_on with
  | _ x ih =>
    intro c hc
    rw [beBytes_eq] at hc
    by_cases hx : x = 0
    · simp [hx] at hc
    · rw [if_neg hx] at hc
      rcases List.mem_append.mp hc with h1 | h2
      · exact ih (x / 256) (Nat.div_lt_self (by omega) (by norm_num)) c h1
      · have : c = x % 256 := by simpa using h2
        subst this
        exact Nat.mod_lt _ (by norm_num)

theorem beFold_beBytes (x : Nat) : beFold (beBytes x) = x := by
  induction x using Nat.strong_induction_on with
  | _ x ih =>
    rw [beBytes_eq]
    by_cases hx : x = 0
    · simp [hx, beFold]
    · rw [if_neg hx, beFold_append_singleton,
        ih (x / 256) (Nat.div_lt_self (by omega) (by norm_num))]
      omega

theorem beBytes_length_le : ∀ L x : Nat, x < 256 ^ L → (beBytes x).length ≤ L := by
  intro L
  induction L with
  | zero =>
    intro x hx
    have : x = 0 := by simpa using hx
    simp [this, beBytes_zero]
  | succ L ih =>
    intro x hx
    rw [beBytes_eq]
    by_cases hx0 : x = 0
    · simp [hx0]
    · rw [if_neg hx0]
      have hdiv : x / 256 < 256 ^ L := by
        rw [Nat.div_lt_iff_lt_mul (by norm_num : 0 < 256)]
        calc x < 256 ^ (L + 1) := hx
          _ = 256 ^ L * 256 := by rw [pow_succ]
      have := ih (x / 256) hdiv
      simp only [List.length_append, List.length_cons, List.length_nil]
      omega

theorem minBytes_bytes_lt (x : Nat) : ∀ c ∈ minBytes x, c < 256 := by
  unfold minBytes
  by_cases hx : x = 0
  · simp [hx]
  · rw [if_neg hx]; exact beBytes_bytes_lt x

theorem beFold_minBytes (x : Nat) : beFold (minBytes x) = x := by
  unfold minBytes
  by_cases hx : x = 0
  · simp [hx, beFold]
  · rw [if_neg hx]; exact beFold_beBytes x

theorem minBytes_length_le {x L : Nat} (hx : x < 256 ^ L) (hL : 0 < L) :
    (minBytes x).length ≤ L := by
  unfold minBytes
  by_cases h0 : x = 0
  · simp [h0]; omega
  · rw [if_neg h0]; exact beBytes_length_le L x hx

theorem replicate_minBytes_eq_padBE {x L : Nat} (hx : x < 256 ^ L) (hL : 0 < L) :
    List.replicate (L - (minBytes x).length) 0 ++ minBytes x = padBE x L := by
  set s := List.replicate (L - (minBytes x).length) 0 ++ minBytes x with hs
  have hw : ∀ b ∈ s, b < 256 := by
    intro b hb
    rcases List.mem_append.mp hb with h1 | h2
    · have : b = 0 := List.eq_of_mem_replicate h1
      omega
    · exact minBytes_bytes_lt x b h2
  have hlen : s.length = L := by
    have := minBytes_length_le hx hL
    simp only [hs, List.length_append, List.length_replicate]
    omega
  have hfold : beFold s = x := by
    rw [hs, beFold_replicate_zero, beFold_minBytes]
  calc s = padBE (beFold s) s.length := (padBE_beFold hw).symm
    _ = padBE x L := by rw [hfold, hlen]

theorem i2osp_eq_padBE {x L : Nat} (hx : x < 256 ^ L) (hL : 0 < L) :
    i2osp x L = .ok (padBE x L) := by
  unfold i2osp
  rw [if_neg (by omega), replicate_minBytes_eq_padBE hx hL]

theorem i2osp_beFold {s : List Nat} (hne : s ≠ []) (hw : ∀ b ∈ s, b < 256) :
    i2osp (beFold s) s.length = .ok s := by
  have hlen : 0 < s.length := List.length_pos.mpr hne
  rw [i2osp_eq_padBE (beFold_lt hw) hlen, padBE_beFold hw]

/-! ## Bit- and byte-size characterisation -/

theorem bitSizeLoop_spec : ∀ fuel n s : Nat, n < 2 ^ fuel → 0 < n →
    ∃ t, bitSizeLoop fuel n s = s + t ∧ 0 < t ∧ 2 ^ (t - 1) ≤ n ∧ n < 2 ^ t := by
  intro fuel
  induction fuel with
  | zero =>
    intro n s hfuel hn
    simp at hfuel
    omega
  | succ fuel ih =>
    intro n s hfuel hn
    have hne : n ≠ 0 := by omega
    simp only [bitSizeLoop, if_neg hne]
    by_cases h1 : n = 1
    · subst h1
      refine ⟨1, ?_, by omega, by simp, by norm_num⟩
      show bitSizeLoop fuel 0 (s + 1) = s + 1
      cases fuel <;> simp [bitSizeLoop]
    · have hn2 : 2 ≤ n := by omega
      have hdivpos : 0 < n / 2 := Nat.div_pos hn2 (by norm_num)
      have hdivlt : n / 2 < 2 ^ fuel := by
        rw [Nat.div_lt_iff_lt_mul (by norm_num : 0 < 2)]
        calc n < 2 ^ (fuel + 1) := hfuel
          _ = 2 ^ fuel * 2 := by rw [pow_succ]
      obtain ⟨t', heq, ht'pos, hlo, hhi⟩ := ih (n / 2) (s + 1) hdivlt hdivpos
      refine ⟨t' + 1, by omega, by omega, ?_, ?_⟩
      · have : 2 ^ (t' - 1) ≤ n / 2 := hlo
        have h2 : 2 ^ (t' + 1 - 1) = 2 ^ (t' - 1) * 2 := by
          have : t' + 1 - 1 = t' - 1 + 1 := by omega
          rw [this, pow_succ]
        rw [h2]
        have := Nat.div_mul_le_self n 2
        calc 2 ^ (t' - 1) * 2 ≤ n / 2 * 2 := by
              exact Nat.mul_le_mul_right _ hlo
          _ ≤ n := Nat.div_mul_le_self n 2
      · have : n / 2 ≤ 2 ^ t' - 1 := by omega
        have hn' : n ≤ n / 2 * 2 + 1 := by omega
        calc n ≤ n / 2 * 2 + 1 := hn'
          _ ≤ (2 ^ t' - 1) * 2 + 1 := by
              have := Nat.mul_le_mul_right 2 this
              omega
          _ < 2 ^ (t' + 1) := by
              have hpos : 1 ≤ 2 ^ t' := Nat.one_le_two_pow
              rw [pow_succ]
              omega

theorem integer_bit_size_spec {n : Nat} (hn : 0 < n) :
    0 < integer_bit_size n ∧
    2 ^ (integer_bit_size n - 1) ≤ n ∧ n < 2 ^ integer_bit_size n := by
  have hne : n ≠ 0 := by omega
  obtain ⟨t, heq, htpos, hlo, hhi⟩ :=
    bitSizeLoop_spec n n 0 (Nat.lt_two_pow n) hn
  unfold integer_bit_size
  rw [if_neg hne, heq]
  simpa using ⟨htpos, hlo, hhi⟩

theorem integer_bit_size_zero : integer_bit_size 0 = 1 := rfl

theorem integer_byte_size_pos (n : Nat) : 0 < integer_byte_size n := by
  unfold integer_byte_size
  by_cases hn : n = 0
  · simp [hn]
  · have hb := (integer_bit_size_spec (by omega : 0 < n)).1
    by_cases hm : integer_bit_size n % 8 ≠ 0
    · simp only [if_pos (Or.inl hm)]; omega
    · push_neg at hm
      rw [if_neg (by push_neg; exact ⟨hm, hn⟩)]
      omega

theorem lt_pow_integer_byte_size (n : Nat) : n < 256 ^ integer_byte_size n := by
  by_cases hn : n = 0
  · subst hn; positivity
  · obtain ⟨hbpos, hlo, hhi⟩ := integer_bit_size_spec (show 0 < n by omega)
    set b := integer_bit_size n with hb
    have key : b ≤ 8 * integer_byte_size n := by
      unfold integer_byte_size
      rw [← hb]
      by_cases hm : b % 8 ≠ 0
      · rw [if_pos (Or.inl hm)]; omega
      · push_neg at hm
        rw [if_neg (by push_neg; exact ⟨hm, hn⟩)]
        omega
    calc n < 2 ^ b := hhi
      _ ≤ 2 ^ (8 * integer_byte_size n) := Nat.pow_le_pow_right (by norm_num) key
      _ = 256 ^ integer_byte_size n := by
          rw [pow_mul]
          norm_num

theorem pow_le_of_integer_byte_size {n : Nat} (hn : 0 < n) :
    256 ^ (integer_byte_size n - 1) ≤ n := by
  obtain ⟨hbpos, hlo, hhi⟩ := integer_bit_size_spec hn
  set b := integer_bit_size n with hb
  have key : 8 * (integer_byte_size n - 1) ≤ b - 1 := by
    unfold integer_byte_size
    rw [← hb]
    by_cases hm : b % 8 ≠ 0
    · rw [if_pos (Or.inl hm)]; omega
    · push_neg at hm
      rw [if_neg (by push_neg; exact ⟨hm, by omega⟩)]
      omega
  calc 256 ^ (integer_byte_size n - 1) = 2 ^ (8 * (integer_byte_size n - 1)) := by
        rw [pow_mul]; norm_num
    _ ≤ 2 ^ (b - 1) := Nat.pow_le_pow_right (by norm_num) key
    _ ≤ n := hlo

/-! ## Correctness of the extended Euclidean engine -/

theorem bezoutAux_spec : ∀ b a : Nat, ∀ u v s t : Int, ∀ A B : Nat,
    (A : Int) * u + (B : Int) * v = (a : Int) →
    (A : Int) * s + (B : Int) * t = (b : Int) →
    (A : Int) * (bezoutAux a b u v s t).1 + (B : Int) * (bezoutAux a b u v s t).2.1 =
      ((bezoutAux a b u v s t).2.2 : Int) ∧
    (bezoutAux a b u v s t).2.2 = Nat.gcd a b := by
  intro b
  induction b using Nat.strong_induction_on with
  | _ b ih =>
    intro a u v s t A B h1 h2
    by_cases hb : 0 < b
    · have hmod : a % b < b := Nat.mod_lt _ hb
      have hstep : bezoutAux a b u v s t =
          bezoutAux b (a % b) s t (u - (a / b : Nat) * s) (v - (a / b : Nat) * t) := by
        rw [bezoutAux]
        rw [dif_pos hb]
      rw [hstep]
      have h2' : (A : Int) * (u - (a / b : Nat) * s) + (B : Int) * (v - (a / b : Nat) * t) =
          ((a % b : Nat) : Int) := by
        have hmoddef : ((a % b : Nat) : Int) = (a : Int) - ((a / b : Nat) : Int) * (b : Int) := by
          have hmd := Nat.mod_add_div a b
          have hcast : ((a % b : Nat) : Int) + (b : Int) * ((a / b : Nat) : Int) = (a : Int) := by
            exact_mod_cast hmd
          linarith
        rw [hmoddef, ← h1, ← h2]
        ring
      obtain ⟨hc1, hc2⟩ := ih (a % b) hmod b s t _ _ A B h2 h2'
      refine ⟨hc1, ?_⟩
      rw [hc2]
      rw [Nat.gcd_comm b (a % b), ← Nat.gcd_rec b a, Nat.gcd_comm b a]
    · have hb0 : b = 0 := by omega
      subst hb0
      have hstop : bezoutAux a 0 u v s t = (u, v, a) := by
        rw [bezoutAux]
        simp
      rw [hstop]
      exact ⟨h1, (Nat.gcd_zero_right a).symm⟩

theorem bezout_spec (a b : Nat) :
    (a : Int) * (bezout a b).1 + (b : Int) * (bezout a b).2.1 =
      ((bezout a b).2.2 : Int) ∧
    (bezout a b).2.2 = Nat.gcd a b := by
  unfold bezout
  exact bezoutAux_spec b a 1 0 0 1 a b (by ring) (by ring)

theorem bezout_zero_right (a : Nat) : bezout a 0 = (1, 0, a) := by
  unfold bezout bezoutAux
  simp


/-- The private exponent really is a modular inverse of `e` mod `λ`. -/
theorem privateExponent_spec {e lbda : Nat} (hl : 2 ≤ lbda)
    (hg : Nat.gcd e lbda = 1) :
    e * privateExponent e lbda % lbda = 1 := by
  obtain ⟨hbez, hgcd⟩ := bezout_spec e lbda
  set u := (bezout e lbda).1 with hu
  set v := (bezout e lbda).2.1 with hv
  have hlne : (lbda : Int) ≠ 0 := by
    exact_mod_cast (by omega : lbda ≠ 0)
  have hlpos : (0 : Int) < (lbda : Int) := by
    exact_mod_cast (by omega : 0 < lbda)
  have hone : (e : Int) * u + (lbda : Int) * v = 1 := by
    rw [hbez, hgcd, hg]
    norm_num
  have hdnn : 0 ≤ u % (lbda : Int) := Int.emod_nonneg u hlne
  have hdcast : ((privateExponent e lbda : Nat) : Int) = u % (lbda : Int) := by
    unfold privateExponent
    rw [← hu, Int.toNat_of_nonneg hdnn]
  have hchain : ((e : Int) * (u % (lbda : Int))) % (lbda : Int) = 1 := by
    rw [Int.mul_emod, Int.emod_emod_of_dvd u (dvd_refl _), ← Int.mul_emod]
    have heu : (e : Int) * u = 1 + (lbda : Int) * (-v) := by
      have : (lbda : Int) * (-v) = -((lbda : Int) * v) := by ring
      omega
    rw [heu, Int.add_mul_emod_self_left]
    exact Int.emod_eq_of_lt (by norm_num)
      (by exact_mod_cast (by omega : 1 < lbda))
  have : ((e * privateExponent e lbda % lbda : Nat) : Int) = 1 := by
    push_cast
    rw [hdcast]
    exact hchain
  exact_mod_cast this

/-! ## The constant-time comparator -/

theorem ctc_foldl_false (l : List (Nat × Nat)) :
    l.foldl (fun result p => result && (p.1 == p.2)) false = false := by
  induction l with
  | nil => rfl
  | cons p t ih => simpa using ih

theorem constant_time_cmp_eq_true_iff :
    ∀ a b : List Nat, a.length = b.length →
      (constant_time_cmp a b = true ↔ a = b) := by
  intro a
  induction a with
  | nil =>
    intro b hb
    have : b = [] := by
      cases b with
      | nil => rfl
      | cons y u => simp at hb
    subst this
    simp [constant_time_cmp]
  | cons x t ih =>
    intro b hb
    cases b with
    | nil => simp at hb
    | cons y u =>
      have hlen : t.length = u.length := by simpa using hb
      unfold constant_time_cmp
      rw [List.zip_cons_cons, List.foldl_cons]
      by_cases hxy : x = y
      · subst hxy
        simp only [beq_self_eq_true, Bool.true_and]
        constructor
        · intro h
          have := (ih u hlen).mp h
          rw [this]
        · intro h
          have : t = u := by injection h
          exact (ih u hlen).mpr this
      · have : (x == y) = false := beq_eq_false_iff_ne.mpr hxy
        rw [this]
        simp only [Bool.true_and]
        rw [ctc_foldl_false]
        constructor
        · intro h; exact absurd h (by simp)
        · intro h
          have : x = y := by injection h
          exact absurd this hxy

theorem constant_time_cmp_self (a : List Nat) : constant_time_cmp a a = true :=
  (constant_time_cmp_eq_true_iff a a rfl).mpr rfl

/-! ## RSA correctness over a squarefree multi-prime modulus -/

/-- Fermat's little theorem step: for a prime `p` and an exponent
`K ≡ 1 (mod p-1)`, `K ≥ 1`, we have `m^K ≡ m (mod p)` for every `m`. -/
theorem pow_modEq_self_of_prime {p K : Nat} (hp : Nat.Prime p)
    (hK : 0 < K) (hKe : K ≡ 1 [MOD p - 1]) (m : Nat) :
    m ^ K ≡ m [MOD p] := by
  have hdvd : (p - 1) ∣ K - 1 := (Nat.modEq_iff_dvd' hK).mp hKe.symm
  obtain ⟨c, hc⟩ := hdvd
  have hKform : K = (p - 1) * c + 1 := by omega
  haveI : Fact p.Prime := ⟨hp⟩
  have : ((m ^ K : Nat) : ZMod p) = ((m : Nat) : ZMod p) := by
    push_cast
    by_cases hm : (m : ZMod p) = 0
    · rw [hm, zero_pow (by omega : K ≠ 0)]
    · rw [hKform, pow_add, pow_one, pow_mul,
        ZMod.pow_card_sub_one_eq_one hm, one_pow, one_mul]
  exact (ZMod.natCast_eq_natCast_iff _ _ _).mp this

/-- RSA correctness for a product of distinct primes: if
`K ≡ 1 (mod p-1)` for every prime `p` of the list, then
`m^K ≡ m (mod ∏ primes)`. -/
theorem pow_modEq_self_of_primes : ∀ l : List Nat, (∀ p ∈ l, Nat.Prime p) →
    l.Nodup → ∀ K : Nat, 0 < K → (∀ p ∈ l, K ≡ 1 [MOD p - 1]) →
    ∀ m : Nat, m ^ K ≡ m [MOD l.prod] := by
  intro l
  induction l with
  | nil =>
    intro _ _ K _ _ m
    simp only [List.prod_nil]
    exact Nat.modEq_one
  | cons p t ih =>
    intro hp hnd K hK hKe m
    have hpp : Nat.Prime p := hp p (List.mem_cons_self p t)
    have hpt : ∀ q ∈ t, Nat.Prime q := fun q hq => hp q (List.mem_cons_of_mem p hq)
    obtain ⟨hnotmem, hndt⟩ := List.nodup_cons.mp hnd
    have hcop : Nat.Coprime p t.prod := by
      rw [Nat.coprime_list_prod_right_iff]
      intro q hq
      exact (Nat.coprime_primes hpp (hpt q hq)).mpr (fun h => hnotmem (h ▸ hq))
    rw [List.prod_cons]
    refine (Nat.modEq_and_modEq_iff_modEq_mul hcop).mp ⟨?_, ?_⟩
    · exact pow_modEq_self_of_prime hpp hK (hKe p (List.mem_cons_self p t)) m
    · exact ih hpt hndt K hK (fun q hq => hKe q (List.mem_cons_of_mem p hq)) m

/-- A private key whose assert `3 ≤ e ≤ n-1` passed has at least one odd
prime, hence `λ ≥ 2`. -/
theorem lbda_two_le (sk : MultiPrimeRsaPrivateKey)
    (hp : ∀ p ∈ sk.primes, Nat.Prime p) (hnd : sk.primes.Nodup)
    (hn : 4 ≤ sk.n) : 2 ≤ sk.lbda := by
  have hex : ∃ p ∈ sk.primes, 3 ≤ p := by
    by_contra hcon
    push_neg at hcon
    have htwo : ∀ p ∈ sk.primes, p = 2 := by
      intro p hmem
      have := (hp p hmem).two_le
      have := hcon p hmem
      omega
    match hl : sk.primes with
    | [] =>
      have : sk.n = 1 := by
        unfold MultiPrimeRsaPrivateKey.n
        rw [hl]
        rfl
      omega
    | [p] =>
      have hp2 : p = 2 := htwo p (by rw [hl]; exact List.mem_cons_self p [])
      have : sk.n = p := by
        unfold MultiPrimeRsaPrivateKey.n
        rw [hl]
        simp
      omega
    | p :: q :: r =>
      have hp2 : p = 2 := htwo p (by rw [hl]; exact List.mem_cons_self _ _)
      have hq2 : q = 2 := htwo q (by
        rw [hl]
        exact List.mem_cons_of_mem _ (List.mem_cons_self _ _))
      have : p ≠ q := by
        rw [hl] at hnd
        have := List.nodup_cons.mp hnd
        intro h
        exact this.1 (h ▸ List.mem_cons_self _ _)
      omega
  obtain ⟨p, hmem, hp3⟩ := hex
  have hdvd : (p - 1) ∣ sk.lbda := by
    unfold MultiPrimeRsaPrivateKey.lbda
    exact List.dvd_prod (List.mem_map_of_mem (fun x => x - 1) hmem)
  have hpos : 0 < sk.lbda := by
    unfold MultiPrimeRsaPrivateKey.lbda
    apply List.prod_pos
    intro a ha
    obtain ⟨q, hq, rfl⟩ := List.mem_map.mp ha
    have := (hp q hq).two_le
    omega
  have := Nat.le_of_dvd hpos hdvd
  omega

/-! ## Plumbing lemmas for the `Except` pipeline -/

theorem ok_bind {α β : Type} (a : α) (f : α → Except PErr β) :
    (Except.ok a : Except PErr α).bind f = f a := rfl

theorem error_bind {α β : Type} (e : PErr) (f : α → Except PErr β) :
    (Except.error e : Except PErr α).bind f = .error e := rfl

theorem catchVE_ok {α : Type} (a : α) (r : PErr) :
    catchVE (.ok a) r = .ok a := rfl

theorem modulus_pos (sk : MultiPrimeRsaPrivateKey)
    (hp : ∀ p ∈ sk.primes, Nat.Prime p) : 0 < sk.n := by
  unfold MultiPrimeRsaPrivateKey.n
  apply List.prod_pos
  intro a ha
  exact (hp a ha).pos

/-- The heart of claim C1, factored out: signing then verifying with the
same EMSA encoder yields `ok true` for a valid key pair and an encodable
message. -/
theorem sign_verify_aux (di : List Nat → List Nat)
    (sk : MultiPrimeRsaPrivateKey) (msg : List Nat)
    (hp : ∀ p ∈ sk.primes, Nat.Prime p) (hnd : sk.primes.Nodup)
    (hg : Nat.gcd sk.e sk.lbda = 1)
    (he3 : 3 ≤ sk.e) (hen : sk.e ≤ sk.n - 1)
    (hdw : ∀ b ∈ di msg, b < 256)
    (hfit : (di msg).length + 11 ≤ sk.k) :
    (sign (emsa_encode di) sk msg).bind
      (verify (emsa_encode di) ⟨sk.n, sk.e⟩ msg) = .ok true := by
  set t := di msg with ht
  set tl := t.length with htl
  set k := sk.k with hk
  have hkdef : k = integer_byte_size sk.n := rfl
  have hk11 : 11 ≤ k := by omega
  have hk1 : 0 < k := by omega
  -- modulus bounds
  have hn1 : 0 < sk.n := modulus_pos sk hp
  have hn4 : 4 ≤ sk.n := by omega
  have hnk_hi : sk.n < 256 ^ k := by
    rw [hkdef]; exact lt_pow_integer_byte_size sk.n
  have hnk_lo : 256 ^ (k - 1) ≤ sk.n := by
    rw [hkdef]; exact pow_le_of_integer_byte_size hn1
  -- the encoded message
  set emTail := 1 :: (List.replicate (k - tl - 3) 255 ++ 0 :: t) with hemTail
  set em := 0 :: emTail with hem
  have henc : emsa_encode di msg k = .ok em := by
    have hunf : emsa_encode di msg k =
        if k < tl + 11 then .error .valueError
        else .ok ([0, 1] ++ List.replicate (k - tl - 3) 255 ++ [0] ++ t) := rfl
    rw [hunf, if_neg (by omega), hem, hemTail]
    simp [List.append_assoc]
  have hemlen : em.length = k := by
    rw [hem, hemTail]
    simp only [List.length_cons, List.length_append, List.length_replicate]
    omega
  have hemw : ∀ b ∈ em, b < 256 := by
    intro b hb
    rw [hem, hemTail] at hb
    simp only [List.mem_cons, List.mem_append, List.mem_replicate] at hb
    rcases hb with h | h | ⟨_, h⟩ | h | h
    · omega
    · omega
    · omega
    · omega
    · exact hdw b h
  have hemne : em ≠ [] := by rw [hem]; exact List.cons_ne_nil _ _
  have hTlen : emTail.length = k - 1 := by
    have := hemlen
    rw [hem] at this
    simp only [List.length_cons] at this
    omega
  have hTw : ∀ b ∈ emTail, b < 256 := by
    intro b hb
    exact hemw b (by rw [hem]; exact List.mem_cons_of_mem _ hb)
  -- its integer value is below 256^(k-1) ≤ n
  set m0 := beFold em with hm0
  have hm0lt : m0 < 256 ^ (k - 1) := by
    rw [hm0, hem, beFold_cons]
    simp only [zero_mul, zero_add]
    rw [← hTlen]
    exact beFold_lt hTw
  have hm0n : m0 < sk.n := lt_of_lt_of_le hm0lt hnk_lo
  -- the private exponent
  have hl2 : 2 ≤ sk.lbda := lbda_two_le sk hp hnd hn4
  set d := privateExponent sk.e sk.lbda with hd
  have hed : sk.e * d % sk.lbda = 1 := privateExponent_spec hl2 hg
  have hedne : sk.e * d ≠ 0 := by
    intro h0
    rw [h0, Nat.zero_mod] at hed
    omega
  -- the RSA round trip modulo n
  have hKmod : ∀ p ∈ sk.primes, d * sk.e ≡ 1 [MOD p - 1] := by
    intro p hmem
    have hdvd : (p - 1) ∣ sk.lbda := by
      unfold MultiPrimeRsaPrivateKey.lbda
      exact List.dvd_prod (List.mem_map_of_mem (fun x => x - 1) hmem)
    have h1 : sk.e * d ≡ 1 [MOD sk.lbda] := by
      show sk.e * d % sk.lbda = 1 % sk.lbda
      rw [hed, Nat.mod_eq_of_lt (by omega : 1 < sk.lbda)]
    rw [mul_comm]
    exact Nat.ModEq.of_dvd hdvd h1
  have hrsa : m0 ^ (d * sk.e) ≡ m0 [MOD sk.n] := by
    have := pow_modEq_self_of_primes sk.primes hp hnd (d * sk.e)
      (by rw [mul_comm]; omega) hKmod m0
    exact this
  -- computing sign
  set s0 := m0 ^ d % sk.n with hs0
  have hs0n : s0 < sk.n := Nat.mod_lt _ hn1
  have hs0k : s0 < 256 ^ k := lt_of_lt_of_le hs0n (le_of_lt hnk_hi)
  have hsp1 : sk.rsasp1 m0 = s0 := rfl
  have hsig : sign (emsa_encode di) sk msg = .ok (padBE s0 k) := by
    unfold sign
    rw [← hk, henc, ok_bind, os2ip_of_ne_nil hemne, ok_bind, ← hm0, hsp1,
      i2osp_eq_padBE hs0k hk1]
  -- computing verify on the produced signature
  set sig := padBE s0 k with hsigdef
  have hsiglen : sig.length = k := padBE_length s0 k
  have hsigne : sig ≠ [] := by
    intro h
    rw [h] at hsiglen
    simp at hsiglen
    omega
  have hsigfold : beFold sig = s0 := beFold_padBE hs0k
  have hm1 : s0 ^ sk.e % sk.n = m0 := by
    rw [hs0, ← Nat.pow_mod, ← pow_mul]
    have : m0 ^ (d * sk.e) % sk.n = m0 % sk.n := hrsa
    rw [this, Nat.mod_eq_of_lt hm0n]
  have hvp1 : RsaPublicKey.rsavp1 ⟨sk.n, sk.e⟩ s0 = .ok m0 := by
    unfold RsaPublicKey.rsavp1
    rw [if_neg (by simpa using Nat.not_le.mpr hs0n)]
    show Except.ok (pow_mod3 s0 sk.e sk.n) = _
    unfold pow_mod3
    rw [hm1]
  have hi2 : i2osp m0 k = .ok em := by
    have := i2osp_beFold hemne hemw
    rw [hemlen] at this
    rw [hm0]
    exact this
  have hpk_k : RsaPublicKey.k ⟨sk.n, sk.e⟩ = k := rfl
  rw [hsig, ok_bind]
  unfold verify verifyGen
  rw [hpk_k, if_neg (by rw [hsiglen]; exact fun h => h rfl)]
  rw [os2ip_of_ne_nil hsigne, ok_bind, hsigfold, hvp1, catchVE_ok, ok_bind,
    hi2, catchVE_ok, ok_bind, henc, catchVE_ok, ok_bind,
    constant_time_cmp_self]

/-! ## The claims -/

/-- **C1**: for every valid key pair (as `generate_key_pair` produces:
prime, pairwise-distinct factors, `gcd(e, λ) = 1`, and the asserted
`3 ≤ e ≤ n − 1`) and every message whose digest the EMSA-PKCS1-v1.5
encoder can encode into the key's `k` bytes,
`verify(publicKey, m, sign(privateKey, m))` returns `true`. -/
theorem sign_then_verify_ok (di : List Nat → List Nat)
    (sk : MultiPrimeRsaPrivateKey) (msg : List Nat)
    (hp : ∀ p ∈ sk.primes, Nat.Prime p) (hnd : sk.primes.Nodup)
    (hg : Nat.gcd sk.e sk.lbda = 1)
    (he3 : 3 ≤ sk.e) (hen : sk.e ≤ sk.n - 1)
    (hdw : ∀ b ∈ di msg, b < 256)
    (hfit : (di msg).length + 11 ≤ sk.k) :
    (sign (emsa_encode di) sk msg).bind
      (verify (emsa_encode di) ⟨sk.n, sk.e⟩ msg) = .ok true :=
  sign_verify_aux di sk msg hp hnd hg he3 hen hdw hfit

/-- A concrete valid key: nineteen distinct primes whose product has 11
bytes, with `e = 17` coprime to `λ`. -/
def witnessKey : MultiPrimeRsaPrivateKey :=
  ⟨[3, 5, 7, 11, 13, 17, 19, 23, 29, 31, 37, 41, 43, 47, 53, 59, 61, 67, 71], 17⟩

theorem sign_then_verify_ok_witness :
    (sign (emsa_encode fun _ => []) witnessKey []).bind
      (verify (emsa_encode fun _ => []) ⟨witnessKey.n, witnessKey.e⟩ []) =
      .ok true :=
  sign_then_verify_ok (fun _ => []) witnessKey [] (by decide) (by decide)
    (by decide) (by decide) (by decide) (by decide) (by decide)

/-- **C2** (code bug): `generate_key_pair` tests `gcd(e, λ)` *before*
multiplying the candidate's `p − 1` into `λ`, so the final prime's
contribution is never checked against `e`: with `size = 8`,
`number = 2`, `e = 3` and the primality provider returning 17 then 13,
it returns the key pair `(n = 221, e = 3)` whose `λ = 16·12 = 192` has
`gcd(e, λ) = 3 ≠ 1` — violating the invariant the claim (and the spec's
private-key invariant) states. -/
theorem generate_key_pair_gcd_violation :
    (generate_key_pair 8 2 [17, 13] true (some 3)).map
      (fun kp => (kp.1, kp.2.primes, Nat.gcd kp.2.e kp.2.lbda)) =
      some (⟨221, 3⟩, [17, 13], 3) := by decide

/-- **C3** (code bug): `i2osp` only rejects `x > 256**x_len`, so the
boundary value `x = 256^L` is accepted and silently produces `L + 1`
bytes instead of `L` — here `i2osp 256 1` returns the two-byte string
`[1, 0]` instead of raising `IntegerTooLarge`. -/
theorem i2osp_accepts_boundary : i2osp 256 1 = .ok [1, 0] := by decide

/-- **C4**: for `L ≥ integer_byte_size x`, `i2osp x L` succeeds with the
`L`-byte big-endian (zero-left-padded) representation of `x`, and
`os2ip` maps it back to `x` — including `x = 0`. -/
theorem i2osp_os2ip_roundtrip (x L : Nat) (hL : integer_byte_size x ≤ L) :
    i2osp x L = .ok (padBE x L) ∧ (padBE x L).length = L ∧
      os2ip (padBE x L) = .ok x := by
  have hx : x < 256 ^ L :=
    lt_of_lt_of_le (lt_pow_integer_byte_size x)
      (Nat.pow_le_pow_right (by norm_num) hL)
  have hL1 : 0 < L := lt_of_lt_of_le (integer_byte_size_pos x) hL
  refine ⟨i2osp_eq_padBE hx hL1, padBE_length x L, ?_⟩
  have hne : padBE x L ≠ [] := by
    intro h
    have := padBE_length x L
    rw [h] at this
    simp at this
    omega
  rw [os2ip_of_ne_nil hne, beFold_padBE hx]

theorem i2osp_os2ip_roundtrip_witness :
    i2osp 0 2 = .ok (padBE 0 2) ∧ (padBE 0 2).length = 2 ∧
      os2ip (padBE 0 2) = .ok 0 :=
  i2osp_os2ip_roundtrip 0 2 (by decide)

/-- **C5** (counterexample): on the empty byte string `os2ip` does not
return `0` — `int('', 16)` raises `ValueError`. -/
theorem os2ip_empty_raises : os2ip [] = .error .valueError := rfl

/-- **C5** (amended): on every *non-empty* byte string, `os2ip` returns
the non-negative integer whose big-endian base-256 digits are the
string's bytes; on the empty string it raises `ValueError`. -/
theorem os2ip_big_endian_value (s : List Nat) (h : s ≠ []) :
    os2ip s = .ok (beVal s) := by
  rw [os2ip_of_ne_nil h, beFold_eq_beVal]

theorem os2ip_big_endian_value_witness : os2ip [1, 2] = .ok (beVal [1, 2]) :=
  os2ip_big_endian_value [1, 2] (by decide)

/-- **C6**: whenever `len(signature) ≠ k`, `verify` raises
`InvalidSignature`; the second conjunct shows the outcome is the same
for *every* behaviour of the `rsavp1` primitive, i.e. the failure
happens before the RSA primitive is consulted. -/
theorem verify_wrong_length_invalid (pk : RsaPublicKey)
    (encode : List Nat → Nat → Except PErr (List Nat)) (msg sig : List Nat)
    (h : sig.length ≠ pk.k) :
    verify encode pk msg sig = .error .invalidSignature ∧
    ∀ vp1 : Nat → Except PErr Nat,
      verifyGen pk.k vp1 encode msg sig = .error .invalidSignature := by
  constructor
  · unfold verify verifyGen
    rw [if_pos h]
  · intro vp1
    unfold verifyGen
    rw [if_pos h]

theorem verify_wrong_length_invalid_witness :
    verify (fun _ _ => .ok []) ⟨255, 3⟩ [] [] = .error .invalidSignature :=
  (verify_wrong_length_invalid ⟨255, 3⟩ (fun _ _ => .ok []) [] [] (by decide)).1

/-- **C7**: a `k`-byte signature that passes the structural steps
(`os2ip`, the RSA primitive, the `i2osp` reconversion) but whose
re-encoding fails because `k` is smaller than the encoding overhead
makes `verify` raise `RSAModulusTooShort`, not `InvalidSignature`. -/
theorem verify_modulus_too_short (k : Nat) (vp1 : Nat → Except PErr Nat)
    (di : List Nat → List Nat) (msg sig : List Nat) (s m : Nat) (em : List Nat)
    (hlen : sig.length = k)
    (hs : os2ip sig = .ok s)
    (hm : vp1 s = .ok m)
    (hem : i2osp m k = .ok em)
    (hshort : k < (di msg).length + 11) :
    verifyGen k vp1 (emsa_encode di) msg sig = .error .rsaModulusTooShort := by
  unfold verifyGen
  rw [if_neg (by rw [hlen]; exact fun h => h rfl), hs, ok_bind, hm, catchVE_ok,
    ok_bind, hem, catchVE_ok, ok_bind]
  have hencfail : emsa_encode di msg k = .error .valueError := by
    have hunf : emsa_encode di msg k =
        if k < (di msg).length + 11 then .error .valueError
        else .ok ([0, 1] ++ List.replicate (k - (di msg).length - 3) 255 ++
          [0] ++ di msg) := rfl
    rw [hunf, if_pos hshort]
  rw [hencfail]
  rfl

theorem verify_modulus_too_short_witness :
    verifyGen 1 (fun _ => .ok 0) (emsa_encode fun _ => []) [] [5] =
      .error .rsaModulusTooShort :=
  verify_modulus_too_short 1 (fun _ => .ok 0) (fun _ => []) [] [5] 5 0 [0]
    rfl (by decide) rfl (by decide) (by decide)

/-- **C8**: `bezout a b` returns `(u, v, g)` with `a·u + b·v = g` and
`g = gcd(a, b)`, and in the degenerate case `b = 0` it returns
`(1, 0, a)` (so `g = a`) without any division. -/
theorem bezout_correct (a b : Nat) :
    (a : Int) * (bezout a b).1 + (b : Int) * (bezout a b).2.1 =
      ((bezout a b).2.2 : Int) ∧
    (bezout a b).2.2 = Nat.gcd a b ∧
    (b = 0 → bezout a b = (1, 0, a)) := by
  obtain ⟨h1, h2⟩ := bezout_spec a b
  refine ⟨h1, h2, fun hb => ?_⟩
  rw [hb]
  exact bezout_zero_right a

theorem bezout_correct_witness :
    (240 : Int) * (bezout 240 46).1 + (46 : Int) * (bezout 240 46).2.1 =
      ((bezout 240 46).2.2 : Int) ∧
    (bezout 240 46).2.2 = Nat.gcd 240 46 ∧
    ((46 : Nat) = 0 → bezout 240 46 = (1, 0, 240)) :=
  bezout_correct 240 46

/-- **C9**: on equal-length byte strings (the empty string included),
`constant_time_cmp` returns `true` exactly when the strings are equal. -/
theorem constant_time_cmp_iff (a b : List Nat) (h : a.length = b.length) :
    constant_time_cmp a b = true ↔ a = b :=
  constant_time_cmp_eq_true_iff a b h

theorem constant_time_cmp_iff_witness :
    constant_time_cmp [] [] = true ↔ ([] : List Nat) = [] :=
  constant_time_cmp_iff [] [] rfl

/-- **C10**: decoding a non-empty byte string with `os2ip` and
re-encoding at the same length with `i2osp` reconstructs the string
exactly, leading zero bytes included. -/
theorem os2ip_then_i2osp (s : List Nat) (hne : s ≠ [])
    (hw : ∀ b ∈ s, b < 256) :
    (os2ip s).bind (fun x => i2osp x s.length) = .ok s := by
  rw [os2ip_of_ne_nil hne, ok_bind]
  exact i2osp_beFold hne hw

theorem os2ip_then_i2osp_witness :
    (os2ip [0, 7]).bind (fun x => i2osp x ([0, 7] : List Nat).length) =
      .ok [0, 7] :=
  os2ip_then_i2osp [0, 7] (by decide) (by decide)
